import Mathlib

/-!
Verification of the terark-db composite-table / segment core.

The development shallowly embeds the relevant functions of
src/src/nark/db/db_table.cpp and src/src/terark/db/db_segment.cpp:
machine integers become Nat (all the quantities involved are non-negative
counts and ids, and no overflow-sensitive arithmetic occurs on the
verified paths), bit vectors become List Bool, the opaque column-group
stores and indexes (external collaborators per the specification) are
represented by the sequences of records they hold.
-/

namespace TerarkDb

/-- Encoded bytes of a record or cell. -/
abbrev Cell := List Nat

/-- Row content of a writable-backed segment, split the way the read path
(WritableSegment::getValueAppend) combines it: upd is the concatenation of
the inplace-updatable fixed-length colgroup cells, rest is the projection
to all remaining colgroups.  In-place updates rewrite only upd. -/
structure Row where
  upd  : Cell
  rest : Cell
deriving DecidableEq, Repr

instance : Inhabited Row := ⟨⟨[], []⟩⟩

/-- Number of 0 bits among the first i bits; febitvec rank0. -/
def rank0 (bits : List Bool) (i : Nat) : Nat :=
  ((bits.take i).filter (fun b => !b)).length

/-- Position of the k-th (0-based) 0 bit; febitvec/rank_select select0. -/
def select0 : List Bool → Nat → Nat
  | [], k => k
  | true :: bs, k => 1 + select0 bs k
  | false :: _, 0 => 0
  | false :: bs, k + 1 => 1 + select0 bs k

/-- Total number of 0 bits; rank_select max_rank0. -/
def maxRank0 (bits : List Bool) : Nat := (bits.filter (fun b => !b)).length

/-- Number of 1 bits; febitvec popcnt. -/
def popcnt (bits : List Bool) : Nat := (bits.filter (fun b => b)).length

theorem select0_lt_length (bits : List Bool) (k : Nat)
    (h : k < maxRank0 bits) : select0 bits k < bits.length := by
  induction bits generalizing k with
  | nil => simp [maxRank0] at h
  | cons b bs ih =>
    cases b with
    | true =>
      have hk : k < maxRank0 bs := by simpa [maxRank0] using h
      have := ih k hk
      simp only [select0, List.length_cons]
      omega
    | false =>
      cases k with
      | zero => simp [select0]
      | succ k' =>
        have hk : k' < maxRank0 bs := by
          simp [maxRank0] at h ⊢
          omega
        have := ih k' hk
        simp only [select0, List.length_cons]
        omega

theorem select0_bit_clear (bits : List Bool) (k : Nat)
    (h : k < maxRank0 bits) : bits.getD (select0 bits k) true = false := by
  induction bits generalizing k with
  | nil => simp [maxRank0] at h
  | cons b bs ih =>
    cases b with
    | true =>
      have hk : k < maxRank0 bs := by simpa [maxRank0] using h
      rw [select0, Nat.add_comm 1 (select0 bs k)]
      simpa using ih k hk
    | false =>
      cases k with
      | zero => simp [select0]
      | succ k' =>
        have hk : k' < maxRank0 bs := by
          simp [maxRank0] at h ⊢
          omega
        rw [select0, Nat.add_comm 1 (select0 bs k')]
        simpa using ih k' hk

theorem rank0_zero (bits : List Bool) : rank0 bits 0 = 0 := rfl

theorem rank0_cons (b : Bool) (bs : List Bool) (i : Nat) :
    rank0 (b :: bs) (i + 1) = (if b then 0 else 1) + rank0 bs i := by
  cases b <;> simp [rank0, Nat.add_comm]

theorem rank0_succ_of_live (bits : List Bool) (i : Nat)
    (hlive : bits.getD i false = false) (hi : i < bits.length) :
    rank0 bits (i + 1) = rank0 bits i + 1 := by
  induction bits generalizing i with
  | nil => simp at hi
  | cons b bs ih =>
    cases i with
    | zero =>
      simp only [List.getD_cons_zero] at hlive
      subst hlive
      simp [rank0_cons, rank0_zero]
    | succ j =>
      simp only [List.getD_cons_succ] at hlive
      simp only [List.length_cons] at hi
      rw [rank0_cons, rank0_cons, ih j hlive (by omega)]
      omega

theorem rank0_mono (bits : List Bool) {i j : Nat} (h : i ≤ j) :
    rank0 bits i ≤ rank0 bits j := by
  induction bits generalizing i j with
  | nil => simp [rank0]
  | cons b bs ih =>
    cases i with
    | zero => simp [rank0_zero]
    | succ i' =>
      cases j with
      | zero => omega
      | succ j' =>
        rw [rank0_cons, rank0_cons]
        have := ih (i := i') (j := j') (by omega)
        omega

theorem rank0_strictMono (bits : List Bool) {i j : Nat} (hij : i < j)
    (hi : i < bits.length) (hlive : bits.getD i false = false) :
    rank0 bits i < rank0 bits j := by
  have h1 : rank0 bits (i + 1) = rank0 bits i + 1 := rank0_succ_of_live bits i hlive hi
  have h2 : rank0 bits (i + 1) ≤ rank0 bits j := rank0_mono bits (by omega)
  omega

theorem rank0_lt_maxRank0 (bits : List Bool) (i : Nat)
    (hi : i < bits.length) (hlive : bits.getD i false = false) :
    rank0 bits i < maxRank0 bits := by
  induction bits generalizing i with
  | nil => simp at hi
  | cons b bs ih =>
    cases i with
    | zero =>
      simp only [List.getD_cons_zero] at hlive
      subst hlive
      simp [rank0_zero, maxRank0]
    | succ j =>
      simp only [List.getD_cons_succ] at hlive
      simp only [List.length_cons] at hi
      have := ih j (by omega) hlive
      rw [rank0_cons]
      cases b <;> simp [maxRank0] at this ⊢ <;> omega

theorem rank0_of_popcnt_zero (bits : List Bool) (i : Nat)
    (hz : popcnt bits = 0) (hi : i ≤ bits.length) : rank0 bits i = i := by
  induction bits generalizing i with
  | nil => simp at hi; simp [rank0, hi]
  | cons b bs ih =>
    cases b with
    | true => simp [popcnt] at hz
    | false =>
      cases i with
      | zero => simp [rank0_zero]
      | succ j =>
        have hz' : popcnt bs = 0 := by simpa [popcnt] using hz
        simp only [List.length_cons] at hi
        rw [rank0_cons, ih j hz' (by omega)]
        simp [Nat.add_comm]

/-!
## Model of ReadonlySegment::convFrom and completeAndReload (db_segment.cpp)

The input of a convert is a frozen writable segment: an append-only row
store addressed by the logical sub id, plus the mutable is_del bitmap.
The opaque store builders (buildIndex, buildStore, buildDictZipStore,
MultiPartStore) are external collaborators that consume the sequence of
live records emitted by the first pass and reproduce exactly that record
sequence under physical ids; the model therefore represents the built
read-only data of the new segment by that sequence itself.

Concurrency is modelled by two observation points of the input segment:
snap, its state when convFrom copies m_isDel (db_segment.cpp:658), and
input, its state at the final writer-lock swap
(completeAndReload, db_segment.cpp:877-879).  Because book_updates is
enabled before the snapshot, every mutation between the two states is
recorded in the pending-update journal; the three drains are given as the
three id batches u1, u2, u3 whose union covers all recorded mutations.
Each drain in the code reads the input state current at that moment; any
mutation arriving after a drain is journaled again and re-processed by a
later drain, so the final segment state equals the one obtained by
processing every batch against the swap-time state, which is how the
drain is modelled here.
-/

/-- Frozen writable segment: wrtStore rows by logical sub id together with
the is_del bitmap.  Mutations possible while frozen are deletions
(is_del 0 to 1) and in-place rewrites of the updatable cells. -/
structure InputSeg where
  rows  : List Row
  isDel : List Bool
deriving DecidableEq, Repr

/-- Read of a live row of the input writable segment
(WritableSegment::getValueAppend combine, db_segment.cpp:1448-1471). -/
def inputGetValue (s : InputSeg) (i : Nat) : Option Row := s.rows.get? i

/-- Live rows in forward scan order: the first pass of convFrom
(db_segment.cpp:666-696) appends each row not deleted in the copied
bitmap to the colgroup temp files. -/
def filterLive (rows : List Row) (bits : List Bool) : List Row :=
  (rows.zip bits).filterMap (fun p => if p.2 then none else some p.1)

/-- New read-only segment as built by convFrom: physical store content,
is_del bitmap and the purge bitmap. -/
structure NewSeg where
  physRows : List Row
  isDel    : List Bool
  isPurged : List Bool
deriving DecidableEq, Repr

/-- State of the new ReadonlySegment after the build passes of convFrom
and the isPurged assignment of completeAndReload (db_segment.cpp:766-770):
m_isDel is the copied snapshot bitmap, the physical store holds the rows
live in the snapshot, and when the snapshot had deletions
is_purged is set to the snapshot bitmap. -/
def convBuild (snap : InputSeg) : NewSeg :=
  { physRows := filterLive snap.rows snap.isDel
    isDel := snap.isDel
    isPurged := if popcnt snap.isDel ≠ 0 then snap.isDel else [] }

/-- ReadableSegment::getPhysicId (db_segment.cpp:201-210). -/
def NewSeg.getPhysicId (g : NewSeg) (logicId : Nat) : Nat :=
  if g.isPurged = [] then logicId else rank0 g.isPurged logicId

/-- ReadonlySegment::getValueByLogicId composed with getPhysicId
(db_segment.cpp:295-299). -/
def newGetValue (g : NewSeg) (i : Nat) : Option Row :=
  g.physRows.get? (g.getPhysicId i)

/-- ReadonlySegment::syncUpdateRecordNoLock (db_segment.cpp:883-901) with
dstBaseId = 0: copies the updatable colgroup cells of the journaled row
from the input store into the new physical store; the non-updatable part
of the destination record is untouched. -/
def syncUpdateRecord (g : NewSeg) (input : InputSeg) (logicId : Nat) : NewSeg :=
  let dstPhysicId := g.getPhysicId logicId
  let srcCell := (input.rows.getD logicId default).upd
  let newRec : Row := ⟨srcCell, (g.physRows.getD dstPhysicId default).rest⟩
  { g with physRows := g.physRows.set dstPhysicId newRec }

/-- One journal entry of the drain loop in completeAndReload
(syncNewDeletionMark, db_segment.cpp:786-831): a deleted id sets the new
segment's is_del bit, a live id has its updatable cells copied over. -/
def drainOne (input : InputSeg) (g : NewSeg) (logicId : Nat) : NewSeg :=
  if input.isDel.getD logicId false then
    { g with isDel := g.isDel.set logicId true }
  else
    syncUpdateRecord g input logicId

/-- One drain pass over a swapped-out batch of the pending-update journal
(list form; the code sorts and deduplicates, which does not change the
result of the fold). -/
def syncNewDeletionMark (input : InputSeg) (g : NewSeg) (upd : List Nat) : NewSeg :=
  upd.foldl (drainOne input) g

/-- Full conversion: build passes over the snapshot, then the triple
drain of completeAndReload (no lock, reader lock, writer lock) against
the swap-time input state. -/
def convFrom (snap input : InputSeg) (u1 u2 u3 : List Nat) : NewSeg :=
  syncNewDeletionMark input
    (syncNewDeletionMark input
      (syncNewDeletionMark input (convBuild snap) u1) u2) u3

theorem filterLive_cons_true (r : Row) (rs : List Row) (bs : List Bool) :
    filterLive (r :: rs) (true :: bs) = filterLive rs bs := by
  simp [filterLive]

theorem filterLive_cons_false (r : Row) (rs : List Row) (bs : List Bool) :
    filterLive (r :: rs) (false :: bs) = r :: filterLive rs bs := by
  simp [filterLive]

theorem filterLive_length (rows : List Row) (bits : List Bool)
    (h : rows.length = bits.length) :
    (filterLive rows bits).length = maxRank0 bits := by
  induction bits generalizing rows with
  | nil =>
    cases rows with
    | nil => simp [filterLive, maxRank0]
    | cons r rs => simp at h
  | cons b bs ih =>
    cases rows with
    | nil => simp at h
    | cons r rs =>
      simp only [List.length_cons] at h
      cases b with
      | true => simpa [filterLive, maxRank0] using ih rs (by omega)
      | false =>
        have := ih rs (by omega)
        simp [filterLive, maxRank0] at this ⊢
        omega

theorem filterLive_get (rows : List Row) (bits : List Bool) (i : Nat)
    (h : rows.length = bits.length) (hi : i < bits.length)
    (hlive : bits.getD i false = false) :
    (filterLive rows bits).get? (rank0 bits i) = rows.get? i := by
  induction bits generalizing rows i with
  | nil => simp at hi
  | cons b bs ih =>
    cases rows with
    | nil => simp at h
    | cons r rs =>
      simp only [List.length_cons] at h hi
      cases i with
      | zero =>
        simp only [List.getD_cons_zero] at hlive
        subst hlive
        simp [filterLive, rank0_zero]
      | succ j =>
        simp only [List.getD_cons_succ] at hlive
        cases b with
        | true =>
          rw [rank0_cons, filterLive_cons_true]
          simpa using ih rs j (by omega) (by omega) hlive
        | false =>
          rw [rank0_cons, filterLive_cons_false]
          have := ih rs j (by omega) (by omega) hlive
          simp only [Bool.false_eq_true, if_false, Nat.add_comm 1 (rank0 bs j)]
          simpa using this

theorem filterLive_of_popcnt_zero (rows : List Row) (bits : List Bool)
    (h : rows.length = bits.length) (hz : popcnt bits = 0) :
    filterLive rows bits = rows := by
  induction bits generalizing rows with
  | nil =>
    cases rows with
    | nil => simp [filterLive]
    | cons r rs => simp at h
  | cons b bs ih =>
    cases rows with
    | nil => simp at h
    | cons r rs =>
      cases b with
      | true => simp [popcnt] at hz
      | false =>
        have hz' : popcnt bs = 0 := by simpa [popcnt] using hz
        simp only [List.length_cons] at h
        simpa [filterLive] using ih rs (by omega) hz'

theorem getq_eq_some_getD {α : Type} (l : List α) (i : Nat) (d : α)
    (h : i < l.length) : l.get? i = some (l.getD i d) := by
  simp [List.getD_eq_getElem?_getD, List.get?_eq_getElem?, List.getElem?_eq_getElem h]

theorem getDq_of_getq {α : Type} {l : List α} {i : Nat} {v : α} (d : α)
    (h : l.get? i = some v) : l.getD i d = v := by
  rw [List.get?_eq_getElem?] at h
  simp [List.getD_eq_getElem?_getD, h]

theorem getq_set_self {α : Type} (l : List α) (i : Nat) (v : α)
    (h : i < l.length) : (l.set i v).get? i = some v := by
  rw [List.get?_eq_getElem?]
  exact List.getElem?_set_eq_of_lt _ h

theorem getq_set_ne {α : Type} (l : List α) {i j : Nat} (v : α)
    (h : i ≠ j) : (l.set i v).get? j = l.get? j := by
  rw [List.get?_eq_getElem?, List.get?_eq_getElem?, List.getElem?_set_ne h]

theorem getDb_set_self (l : List Bool) (i : Nat)
    (h : i < l.length) : (l.set i true).getD i false = true := by
  have := getq_set_self l i true h
  exact getDq_of_getq false this

theorem getDb_set_ne (l : List Bool) {i j : Nat} (v : Bool)
    (h : i ≠ j) : (l.set i v).getD j false = l.getD j false := by
  simp [List.getD_eq_getElem?_getD, List.getElem?_set_ne h]

theorem convBuild_getPhysicId (snap : InputSeg) (i : Nat)
    (hi : i ≤ snap.isDel.length) :
    (convBuild snap).getPhysicId i = rank0 snap.isDel i := by
  by_cases hz : popcnt snap.isDel = 0
  · simp only [convBuild, NewSeg.getPhysicId, hz]
    simp [rank0_of_popcnt_zero snap.isDel i hz hi]
  · have hne : snap.isDel ≠ [] := by
      intro h
      rw [h] at hz
      simp [popcnt] at hz
    simp [convBuild, NewSeg.getPhysicId, hz, hne]

theorem getPhysicId_of_isPurged_eq {g g' : NewSeg} (h : g.isPurged = g'.isPurged)
    (i : Nat) : g.getPhysicId i = g'.getPhysicId i := by
  simp [NewSeg.getPhysicId, h]

theorem drainOne_isPurged (input : InputSeg) (g : NewSeg) (id : Nat) :
    (drainOne input g id).isPurged = g.isPurged := by
  unfold drainOne syncUpdateRecord
  split <;> rfl

theorem drain_isPurged (input : InputSeg) (u : List Nat) (g : NewSeg) :
    (syncNewDeletionMark input g u).isPurged = g.isPurged := by
  induction u generalizing g with
  | nil => rfl
  | cons id u ih =>
    simp only [syncNewDeletionMark, List.foldl_cons] at ih ⊢
    rw [ih, drainOne_isPurged]

theorem drainOne_physRows_length (input : InputSeg) (g : NewSeg) (id : Nat) :
    (drainOne input g id).physRows.length = g.physRows.length := by
  unfold drainOne syncUpdateRecord
  split
  · rfl
  · simp

theorem drainOne_isDel_length (input : InputSeg) (g : NewSeg) (id : Nat) :
    (drainOne input g id).isDel.length = g.isDel.length := by
  unfold drainOne syncUpdateRecord
  split
  · simp
  · rfl

theorem drain_store_inv (snap input : InputSeg) (L : List Nat) (g : NewSeg)
    (hmono : ∀ i, snap.isDel.getD i false = true → input.isDel.getD i false = true)
    (hP : g.isPurged = (convBuild snap).isPurged)
    (hlen : g.physRows.length = maxRank0 snap.isDel)
    (hLvalid : ∀ id ∈ L, id < snap.isDel.length)
    (hInv : ∀ i, i < snap.isDel.length → input.isDel.getD i false = false →
        g.physRows.get? (rank0 snap.isDel i) = some (snap.rows.getD i default) ∨
        g.physRows.get? (rank0 snap.isDel i) =
          some ⟨(input.rows.getD i default).upd, (snap.rows.getD i default).rest⟩) :
    (∀ i, i < snap.isDel.length → input.isDel.getD i false = false →
        (syncNewDeletionMark input g L).physRows.get? (rank0 snap.isDel i) =
            some (snap.rows.getD i default) ∨
        (syncNewDeletionMark input g L).physRows.get? (rank0 snap.isDel i) =
            some ⟨(input.rows.getD i default).upd, (snap.rows.getD i default).rest⟩) ∧
    (∀ i, i < snap.isDel.length → input.isDel.getD i false = false →
        (i ∈ L ∨ g.physRows.get? (rank0 snap.isDel i) =
            some ⟨(input.rows.getD i default).upd, (snap.rows.getD i default).rest⟩) →
        (syncNewDeletionMark input g L).physRows.get? (rank0 snap.isDel i) =
            some ⟨(input.rows.getD i default).upd, (snap.rows.getD i default).rest⟩) := by
  induction L generalizing g with
  | nil =>
    refine ⟨fun i hi hlive => hInv i hi hlive, ?_⟩
    intro i hi hlive hmem
    rcases hmem with h | h
    · simp at h
    · simpa [syncNewDeletionMark] using h
  | cons id L ih =>
    have hidn : id < snap.isDel.length := hLvalid id (by simp)
    have hLv : ∀ x ∈ L, x < snap.isDel.length := fun x hx => hLvalid x (by simp [hx])
    have hfold : syncNewDeletionMark input g (id :: L) =
        syncNewDeletionMark input (drainOne input g id) L := by
      simp [syncNewDeletionMark]
    have hP' : (drainOne input g id).isPurged = (convBuild snap).isPurged := by
      rw [drainOne_isPurged, hP]
    have hlen' : (drainOne input g id).physRows.length = maxRank0 snap.isDel := by
      rw [drainOne_physRows_length, hlen]
    by_cases hdel : input.isDel.getD id false = true
    · -- the journaled id was deleted in the input: only the is_del bit is set
      have hrowsEq : (drainOne input g id).physRows = g.physRows := by
        unfold drainOne
        rw [if_pos hdel]
      have hInv' : ∀ i, i < snap.isDel.length → input.isDel.getD i false = false →
          (drainOne input g id).physRows.get? (rank0 snap.isDel i) =
              some (snap.rows.getD i default) ∨
          (drainOne input g id).physRows.get? (rank0 snap.isDel i) =
              some ⟨(input.rows.getD i default).upd, (snap.rows.getD i default).rest⟩ := by
        rw [hrowsEq]
        exact hInv
      have hres := ih (drainOne input g id) hP' hlen' hLv hInv'
      rw [hfold]
      refine ⟨hres.1, ?_⟩
      intro i hi hlive hmem
      apply hres.2 i hi hlive
      rcases hmem with hm | hm
      · rcases List.mem_cons.mp hm with rfl | hm'
        · rw [hlive] at hdel
          exact absurd hdel (by simp)
        · exact Or.inl hm'
      · right
        rw [hrowsEq]
        exact hm
    · -- the journaled id is live in the input: sync the updatable cells
      have hlive_id : input.isDel.getD id false = false := by
        cases h : input.isDel.getD id false
        · rfl
        · exact absurd h hdel
      have hsnaplive : snap.isDel.getD id false = false := by
        cases h : snap.isDel.getD id false
        · rfl
        · exact absurd (hmono id h) hdel
      have hdst : g.getPhysicId id = rank0 snap.isDel id := by
        rw [getPhysicId_of_isPurged_eq hP, convBuild_getPhysicId snap id (le_of_lt hidn)]
      have hdstlt : rank0 snap.isDel id < g.physRows.length := by
        rw [hlen]
        exact rank0_lt_maxRank0 _ id hidn hsnaplive
      have hvdst := hInv id hidn hlive_id
      have hold : (g.physRows.getD (rank0 snap.isDel id) default).rest =
          (snap.rows.getD id default).rest := by
        rcases hvdst with h | h
        · rw [getDq_of_getq default h]
        · rw [getDq_of_getq default h]
      have hrowsEq : (drainOne input g id).physRows =
          g.physRows.set (rank0 snap.isDel id)
            ⟨(input.rows.getD id default).upd, (snap.rows.getD id default).rest⟩ := by
        unfold drainOne
        rw [if_neg hdel]
        unfold syncUpdateRecord
        simp only [hdst, hold]
      have hr0inj : ∀ i, i < snap.isDel.length → snap.isDel.getD i false = false →
          i ≠ id → rank0 snap.isDel i ≠ rank0 snap.isDel id := by
        intro i hi hl hne
        rcases Nat.lt_or_ge i id with h | h
        · exact Nat.ne_of_lt (rank0_strictMono snap.isDel h hi hl)
        · have hlt : id < i := by omega
          exact (Nat.ne_of_lt (rank0_strictMono snap.isDel hlt hidn hsnaplive)).symm
      have htarget : (drainOne input g id).physRows.get? (rank0 snap.isDel id) =
          some ⟨(input.rows.getD id default).upd, (snap.rows.getD id default).rest⟩ := by
        rw [hrowsEq]
        exact getq_set_self _ _ _ hdstlt
      have hothers : ∀ i, i < snap.isDel.length → input.isDel.getD i false = false →
          i ≠ id →
          (drainOne input g id).physRows.get? (rank0 snap.isDel i) =
            g.physRows.get? (rank0 snap.isDel i) := by
        intro i hi hl hne
        have hsl : snap.isDel.getD i false = false := by
          cases h : snap.isDel.getD i false
          · rfl
          · rw [hmono i h] at hl
            exact absurd hl (by simp)
        rw [hrowsEq]
        exact getq_set_ne _ _ (Ne.symm (hr0inj i hi hsl hne))
      have hInv' : ∀ i, i < snap.isDel.length → input.isDel.getD i false = false →
          (drainOne input g id).physRows.get? (rank0 snap.isDel i) =
              some (snap.rows.getD i default) ∨
          (drainOne input g id).physRows.get? (rank0 snap.isDel i) =
              some ⟨(input.rows.getD i default).upd, (snap.rows.getD i default).rest⟩ := by
        intro i hi hl
        by_cases hne : i = id
        · subst hne
          exact Or.inr htarget
        · rw [hothers i hi hl hne]
          exact hInv i hi hl
      have hres := ih (drainOne input g id) hP' hlen' hLv hInv'
      rw [hfold]
      refine ⟨hres.1, ?_⟩
      intro i hi hlive hmem
      apply hres.2 i hi hlive
      by_cases hne : i = id
      · subst hne
        exact Or.inr htarget
      · rcases hmem with hm | hm
        · rcases List.mem_cons.mp hm with h | hm'
          · exact absurd h hne
          · exact Or.inl hm'
        · right
          rw [hothers i hi hlive hne]
          exact hm

theorem drain_bits_inv (snap input : InputSeg) (L : List Nat) (g : NewSeg)
    (hglen : g.isDel.length = snap.isDel.length)
    (hLvalid : ∀ id ∈ L, id < snap.isDel.length)
    (hsub : ∀ i, g.isDel.getD i false = true → input.isDel.getD i false = true) :
    (syncNewDeletionMark input g L).isDel.length = snap.isDel.length ∧
    (∀ i, (syncNewDeletionMark input g L).isDel.getD i false = true →
        input.isDel.getD i false = true) ∧
    (∀ i, i < snap.isDel.length →
        ((i ∈ L ∧ input.isDel.getD i false = true) ∨ g.isDel.getD i false = true) →
        (syncNewDeletionMark input g L).isDel.getD i false = true) := by
  induction L generalizing g with
  | nil =>
    refine ⟨hglen, hsub, ?_⟩
    intro i hi hmem
    rcases hmem with ⟨hm, _⟩ | hm
    · simp at hm
    · simpa [syncNewDeletionMark] using hm
  | cons id L ih =>
    have hidn : id < snap.isDel.length := hLvalid id (by simp)
    have hLv : ∀ x ∈ L, x < snap.isDel.length := fun x hx => hLvalid x (by simp [hx])
    have hfold : syncNewDeletionMark input g (id :: L) =
        syncNewDeletionMark input (drainOne input g id) L := by
      simp [syncNewDeletionMark]
    by_cases hdel : input.isDel.getD id false = true
    · have hbitsEq : (drainOne input g id).isDel = g.isDel.set id true := by
        unfold drainOne
        rw [if_pos hdel]
      have hglen' : (drainOne input g id).isDel.length = snap.isDel.length := by
        rw [hbitsEq, List.length_set, hglen]
      have hsub' : ∀ i, (drainOne input g id).isDel.getD i false = true →
          input.isDel.getD i false = true := by
        intro i hset
        rw [hbitsEq] at hset
        by_cases hne : i = id
        · subst hne
          exact hdel
        · rw [getDb_set_ne _ _ (Ne.symm hne)] at hset
          exact hsub i hset
      have hres := ih (drainOne input g id) hglen' hLv hsub'
      rw [hfold]
      refine ⟨hres.1, hres.2.1, ?_⟩
      intro i hi hmem
      apply hres.2.2 i hi
      have hthis : i = id → (drainOne input g id).isDel.getD i false = true := by
        intro h
        subst h
        rw [hbitsEq]
        exact getDb_set_self _ _ (by rw [hglen]; exact hi)
      rcases hmem with ⟨hm, hd⟩ | hm
      · rcases List.mem_cons.mp hm with h | hm'
        · exact Or.inr (hthis h)
        · exact Or.inl ⟨hm', hd⟩
      · by_cases hne : i = id
        · exact Or.inr (hthis hne)
        · right
          rw [hbitsEq, getDb_set_ne _ _ (Ne.symm hne)]
          exact hm
    · have hbitsEq : (drainOne input g id).isDel = g.isDel := by
        unfold drainOne
        rw [if_neg hdel]
        unfold syncUpdateRecord
        rfl
      have hglen' : (drainOne input g id).isDel.length = snap.isDel.length := by
        rw [hbitsEq, hglen]
      have hsub' : ∀ i, (drainOne input g id).isDel.getD i false = true →
          input.isDel.getD i false = true := by
        intro i hset
        rw [hbitsEq] at hset
        exact hsub i hset
      have hres := ih (drainOne input g id) hglen' hLv hsub'
      rw [hfold]
      refine ⟨hres.1, hres.2.1, ?_⟩
      intro i hi hmem
      apply hres.2.2 i hi
      rcases hmem with ⟨hm, hd⟩ | hm
      · rcases List.mem_cons.mp hm with h | hm'
        · subst h
          exact absurd hd hdel
        · exact Or.inl ⟨hm', hd⟩
      · right
        rw [hbitsEq]
        exact hm

theorem convFrom_eq_drain (snap input : InputSeg) (u1 u2 u3 : List Nat) :
    convFrom snap input u1 u2 u3 =
      syncNewDeletionMark input (convBuild snap) (u1 ++ u2 ++ u3) := by
  simp [convFrom, syncNewDeletionMark, List.foldl_append]

/-- C1: for every frozen writable segment converted by convert
(ReadonlySegment::convFrom), and for every logical id i that is live (not
deleted) in the input segment at the final writer-lock swap, the
replacement read-only segment returns the same encoded row:
new.getValue(i) equals input.getValue(i), so the set of live-row values is
unchanged by the conversion; and updates journaled before the swap are
applied to the new segment by the triple drain in completeAndReload (its
is_del agrees with the input's swap-time is_del on every id).  The
hypotheses state well-formedness of the two observed input states and the
guarantees of the book_updates protocol: deletions are monotone on a
frozen segment, concurrent mutation touches only the updatable cells of a
row, and every id mutated between the snapshot and the swap appears in
one of the three drained journal batches. -/
theorem claim1_convert_preserves_live_rows
    (snap input : InputSeg) (u1 u2 u3 : List Nat)
    (hrows : snap.rows.length = snap.isDel.length)
    (hrn : input.rows.length = snap.isDel.length)
    (hmono : ∀ i, snap.isDel.getD i false = true → input.isDel.getD i false = true)
    (hrest : ∀ i, i < snap.isDel.length →
        (input.rows.getD i default).rest = (snap.rows.getD i default).rest)
    (hcomplete : ∀ i, i < snap.isDel.length →
        (snap.isDel.getD i false ≠ input.isDel.getD i false ∨
         snap.rows.getD i default ≠ input.rows.getD i default) →
        i ∈ u1 ++ u2 ++ u3)
    (hvalid : ∀ id ∈ u1 ++ u2 ++ u3, id < snap.isDel.length) :
    (∀ i, i < snap.isDel.length → input.isDel.getD i false = false →
        newGetValue (convFrom snap input u1 u2 u3) i = inputGetValue input i) ∧
    (∀ i, i < snap.isDel.length →
        (convFrom snap input u1 u2 u3).isDel.getD i false =
          input.isDel.getD i false) := by
  rw [convFrom_eq_drain]
  have hg0rows : (convBuild snap).physRows = filterLive snap.rows snap.isDel := rfl
  have hg0bits : (convBuild snap).isDel = snap.isDel := rfl
  have hlen0 : (convBuild snap).physRows.length = maxRank0 snap.isDel := by
    rw [hg0rows]
    exact filterLive_length _ _ hrows
  have hInv0 : ∀ i, i < snap.isDel.length → input.isDel.getD i false = false →
      (convBuild snap).physRows.get? (rank0 snap.isDel i) =
          some (snap.rows.getD i default) ∨
      (convBuild snap).physRows.get? (rank0 snap.isDel i) =
          some ⟨(input.rows.getD i default).upd, (snap.rows.getD i default).rest⟩ := by
    intro i hi hl
    left
    have hsl : snap.isDel.getD i false = false := by
      cases h : snap.isDel.getD i false
      · rfl
      · rw [hmono i h] at hl
        exact absurd hl (by simp)
    rw [hg0rows, filterLive_get snap.rows snap.isDel i hrows hi hsl]
    exact getq_eq_some_getD _ _ _ (by omega)
  have hstore := drain_store_inv snap input (u1 ++ u2 ++ u3) (convBuild snap)
    hmono rfl hlen0 hvalid hInv0
  have hbits := drain_bits_inv snap input (u1 ++ u2 ++ u3) (convBuild snap)
    (by rw [hg0bits]) hvalid
    (fun i h => hmono i (by rwa [hg0bits] at h))
  constructor
  · intro i hi hlive
    have htargetEq :
        (⟨(input.rows.getD i default).upd, (snap.rows.getD i default).rest⟩ : Row) =
          input.rows.getD i default := by
      rw [← hrest i hi]
    have hfin : (syncNewDeletionMark input (convBuild snap)
        (u1 ++ u2 ++ u3)).physRows.get? (rank0 snap.isDel i) =
        some (input.rows.getD i default) := by
      by_cases hrowEq : snap.rows.getD i default = input.rows.getD i default
      · rcases hstore.1 i hi hlive with h | h
        · rw [h, hrowEq]
        · rw [h, htargetEq]
      · have hmem := hcomplete i hi (Or.inr hrowEq)
        have := hstore.2 i hi hlive (Or.inl hmem)
        rw [this, htargetEq]
    have hPfin : (syncNewDeletionMark input (convBuild snap)
        (u1 ++ u2 ++ u3)).isPurged = (convBuild snap).isPurged :=
      drain_isPurged input _ _
    unfold newGetValue
    rw [getPhysicId_of_isPurged_eq hPfin,
        convBuild_getPhysicId snap i (le_of_lt hi), hfin]
    unfold inputGetValue
    rw [getq_eq_some_getD input.rows i default (by omega)]
  · intro i hi
    cases hid : input.isDel.getD i false
    · cases hfin : (syncNewDeletionMark input (convBuild snap)
          (u1 ++ u2 ++ u3)).isDel.getD i false
      · rfl
      · have := hbits.2.1 i hfin
        rw [this] at hid
        exact absurd hid (by simp)
    · apply hbits.2.2 i hi
      cases hsd : snap.isDel.getD i false
      · have hmem := hcomplete i hi (Or.inl (by rw [hsd, hid]; simp))
        exact Or.inl ⟨hmem, hid⟩
      · right
        rw [hg0bits]
        exact hsd

/-- Witness for C1: a three-row frozen segment, row 1 deleted in the
snapshot, row 0 deleted and row 2 updated in place between the snapshot
and the swap, both mutations journaled across the drain batches. -/
theorem claim1_witness :
    (∀ i, i < 3 → (InputSeg.mk [⟨[1], [10]⟩, ⟨[2], [20]⟩, ⟨[9], [30]⟩]
          [true, true, false]).isDel.getD i false = false →
        newGetValue
          (convFrom
            (InputSeg.mk [⟨[1], [10]⟩, ⟨[2], [20]⟩, ⟨[3], [30]⟩]
              [false, true, false])
            (InputSeg.mk [⟨[1], [10]⟩, ⟨[2], [20]⟩, ⟨[9], [30]⟩]
              [true, true, false])
            [0] [] [2]) i =
        inputGetValue (InputSeg.mk [⟨[1], [10]⟩, ⟨[2], [20]⟩, ⟨[9], [30]⟩]
          [true, true, false]) i) ∧
    (∀ i, i < 3 →
        (convFrom
            (InputSeg.mk [⟨[1], [10]⟩, ⟨[2], [20]⟩, ⟨[3], [30]⟩]
              [false, true, false])
            (InputSeg.mk [⟨[1], [10]⟩, ⟨[2], [20]⟩, ⟨[9], [30]⟩]
              [true, true, false])
            [0] [] [2]).isDel.getD i false =
        (InputSeg.mk [⟨[1], [10]⟩, ⟨[2], [20]⟩, ⟨[9], [30]⟩]
          [true, true, false]).isDel.getD i false) :=
  claim1_convert_preserves_live_rows
    (InputSeg.mk [⟨[1], [10]⟩, ⟨[2], [20]⟩, ⟨[3], [30]⟩] [false, true, false])
    (InputSeg.mk [⟨[1], [10]⟩, ⟨[2], [20]⟩, ⟨[9], [30]⟩] [true, true, false])
    [0] [] [2]
    (by decide) (by decide)
    (by
      intro i h
      match i with
      | 0 => exact absurd h (by decide)
      | 1 => rfl
      | 2 => exact absurd h (by decide)
      | n + 3 => simp [List.getD] at h)
    (by decide)
    (by decide)
    (by decide)

/-!
## Model of ReadonlySegment::MyStoreIterForward (db_segment.cpp:445-472)

The iterator state is the cursor m_id; increment first skips deleted ids
with the while loop, then yields the id, reads the record by logical id
and advances.  seekExact assigns m_id := id and calls increment.
-/

/-- The skip loop of MyStoreIterForward::increment:
while (m_id < isDel.size && isDel[m_id]) m_id++. -/
def findLive (isDel : List Bool) (i : Nat) : Nat :=
  if i < isDel.length then
    if isDel.getD i false then findLive isDel (i + 1) else i
  else i
termination_by isDel.length - i

/-- MyStoreIterForward::increment: result and the new cursor. -/
def iterIncrement (rows : List Row) (isDel : List Bool) (mId : Nat) :
    Option (Nat × Row) × Nat :=
  let j := findLive isDel mId
  if j < isDel.length then (some (j, rows.getD j default), j + 1) else (none, j)

/-- MyStoreIterForward::seekExact: sets m_id := id, then increments. -/
def iterSeekExact (rows : List Row) (isDel : List Bool) (id : Nat) :
    Option (Nat × Row) × Nat :=
  iterIncrement rows isDel id

/-- Ids yielded by repeatedly calling increment, starting from cursor mId;
fuel bounds the number of yields (isDel.length suffices from cursor 0). -/
def iterIds (isDel : List Bool) : Nat → Nat → List Nat
  | 0, _ => []
  | fuel + 1, mId =>
    let j := findLive isDel mId
    if j < isDel.length then j :: iterIds isDel fuel (j + 1) else []

theorem findLive_props (isDel : List Bool) :
    ∀ m i, isDel.length - i ≤ m →
      i ≤ findLive isDel i ∧
      (findLive isDel i < isDel.length →
        isDel.getD (findLive isDel i) false = false) ∧
      (∀ k, i ≤ k → k < findLive isDel i → isDel.getD k false = true) ∧
      (i ≤ isDel.length → findLive isDel i ≤ isDel.length) := by
  intro m
  induction m with
  | zero =>
    intro i h
    have hge : isDel.length ≤ i := by omega
    rw [findLive, if_neg (by omega)]
    exact ⟨Nat.le_refl i, fun hlt => absurd hlt (by omega),
      fun k hk hk2 => absurd hk2 (by omega), fun hi => by omega⟩
  | succ m ih =>
    intro i h
    by_cases hi : i < isDel.length
    · by_cases hd : isDel.getD i false = true
      · have heq : findLive isDel i = findLive isDel (i + 1) := by
          rw [findLive, if_pos hi, if_pos hd]
        have hrec := ih (i + 1) (by omega)
        rw [heq]
        refine ⟨by omega, hrec.2.1, ?_, fun _ => hrec.2.2.2 (by omega)⟩
        intro k hk hk2
        by_cases hki : k = i
        · subst hki
          exact hd
        · exact hrec.2.2.1 k (by omega) hk2
      · have heq : findLive isDel i = i := by
          rw [findLive, if_pos hi, if_neg hd]
        rw [heq]
        have hdf : isDel.getD i false = false := by
          cases hv : isDel.getD i false
          · rfl
          · exact absurd hv hd
        exact ⟨Nat.le_refl i, fun _ => hdf,
          fun k hk hk2 => absurd hk2 (by omega), fun hile => by omega⟩
    · rw [findLive, if_neg hi]
      exact ⟨Nat.le_refl i, fun hlt => absurd hlt hi,
        fun k hk hk2 => absurd hk2 (by omega), fun hile => by omega⟩

theorem findLive_least (isDel : List Bool) (i j : Nat)
    (hij : i ≤ j) (hlive : isDel.getD j false = false) :
    findLive isDel i ≤ j := by
  have hp := findLive_props isDel (isDel.length - i) i (Nat.le_refl _)
  by_contra hlt
  have := hp.2.2.1 j hij (by omega)
  rw [this] at hlive
  exact absurd hlive (by simp)

theorem iterIds_eq (isDel : List Bool) :
    ∀ fuel i, isDel.length - i ≤ fuel →
      iterIds isDel fuel i =
        (List.range' i (isDel.length - i)).filter
          (fun k => !(isDel.getD k false)) := by
  intro fuel
  induction fuel with
  | zero =>
    intro i h
    have h0 : isDel.length - i = 0 := by omega
    rw [h0]
    rfl
  | succ m ih =>
    intro i h
    have hp := findLive_props isDel (isDel.length - i) i (Nat.le_refl _)
    have hge : i ≤ findLive isDel i := hp.1
    by_cases hj : findLive isDel i < isDel.length
    · have hlive : isDel.getD (findLive isDel i) false = false := hp.2.1 hj
      have hrange : List.range' i (isDel.length - i) =
          List.range' i (findLive isDel i - i) ++
          List.range' (findLive isDel i) (isDel.length - findLive isDel i) := by
        have hr := List.range'_append i (findLive isDel i - i)
          (isDel.length - findLive isDel i) 1
        simp only [Nat.one_mul] at hr
        rw [Nat.add_sub_cancel' hge] at hr
        have hc : isDel.length - i =
            (isDel.length - findLive isDel i) + (findLive isDel i - i) := by omega
        rw [hc, ← hr]
      have hnil : (List.range' i (findLive isDel i - i)).filter
          (fun k => !(isDel.getD k false)) = [] := by
        rw [List.filter_eq_nil_iff]
        intro a ha
        rw [List.mem_range'_1] at ha
        have hdead := hp.2.2.1 a ha.1 (by omega)
        simp only [hdead]
        simp
      have hsplit : List.range' (findLive isDel i) (isDel.length - findLive isDel i) =
          findLive isDel i ::
            List.range' (findLive isDel i + 1) (isDel.length - (findLive isDel i + 1)) := by
        have hc : isDel.length - findLive isDel i =
            (isDel.length - (findLive isDel i + 1)) + 1 := by omega
        rw [hc, List.range'_succ]
      have hrec := ih (findLive isDel i + 1) (by omega)
      simp only [iterIds, if_pos hj]
      rw [hrange, List.filter_append, hnil, List.nil_append, hsplit]
      rw [List.filter_cons_of_pos (by simp only [hlive]; simp)]
      rw [hrec]
    · simp only [iterIds, if_neg hj]
      symm
      rw [List.filter_eq_nil_iff]
      intro a ha
      rw [List.mem_range'_1] at ha
      have hdead := hp.2.2.1 a ha.1 (by omega)
      simp only [hdead]
      simp

/-- C10: the forward store iterator of a read-only segment yields exactly
the logical ids whose is_del bit is clear, in strictly increasing order,
and seekExact(id, val) does not fail on a deleted id: it repositions to
id and returns the next live row at or after id (possibly with a larger
id), returning false only when no live row at or after id exists. -/
theorem claim10_store_iter_forward (rows : List Row) (isDel : List Bool) :
    iterIds isDel isDel.length 0 =
      (List.range isDel.length).filter (fun k => !(isDel.getD k false)) ∧
    (iterIds isDel isDel.length 0).Pairwise (· < ·) ∧
    (∀ id, (iterSeekExact rows isDel id).1.isSome ↔
        ∃ j, id ≤ j ∧ j < isDel.length ∧ isDel.getD j false = false) ∧
    (∀ id j r, (iterSeekExact rows isDel id).1 = some (j, r) →
        id ≤ j ∧ j < isDel.length ∧ isDel.getD j false = false ∧
        (∀ k, id ≤ k → k < j → isDel.getD k false = true) ∧
        r = rows.getD j default) := by
  have hids : iterIds isDel isDel.length 0 =
      (List.range isDel.length).filter (fun k => !(isDel.getD k false)) := by
    have := iterIds_eq isDel isDel.length 0 (by omega)
    rwa [Nat.sub_zero, ← List.range_eq_range'] at this
  refine ⟨hids, ?_, ?_, ?_⟩
  · rw [hids]
    exact (List.pairwise_lt_range isDel.length).filter _
  · intro id
    have hp := findLive_props isDel (isDel.length - id) id (Nat.le_refl _)
    constructor
    · intro hsome
      unfold iterSeekExact iterIncrement at hsome
      by_cases hj : findLive isDel id < isDel.length
      · exact ⟨findLive isDel id, hp.1, hj, hp.2.1 hj⟩
      · simp only [if_neg hj] at hsome
        exact absurd hsome (by simp)
    · rintro ⟨j, hij, hjn, hjl⟩
      have hle : findLive isDel id ≤ j := findLive_least isDel id j hij hjl
      unfold iterSeekExact iterIncrement
      rw [if_pos (by omega)]
      rfl
  · intro id j r hsome
    unfold iterSeekExact iterIncrement at hsome
    by_cases hj : findLive isDel id < isDel.length
    · simp only [if_pos hj] at hsome
      have hp := findLive_props isDel (isDel.length - id) id (Nat.le_refl _)
      have hinj := Option.some.inj hsome
      have hj1 : findLive isDel id = j := congrArg Prod.fst hinj
      have hr1 : rows.getD (findLive isDel id) default = r := congrArg Prod.snd hinj
      subst hj1
      exact ⟨hp.1, hj, hp.2.1 hj, fun k hk hk2 => hp.2.2.1 k hk hk2, hr1.symm⟩
    · simp only [if_neg hj] at hsome
      exact absurd hsome (by simp)

/-- Witness for C10: a concrete five-row segment with rows 0, 2, 3
deleted; the iteration yields [1, 4] and seekExact on the deleted id 2
succeeds, repositioning to the live id 4. -/
theorem claim10_witness :
    iterIds [true, false, true, true, false]
        (List.length [true, false, true, true, false]) 0 =
      (List.range (List.length [true, false, true, true, false])).filter
        (fun k => !(List.getD [true, false, true, true, false] k false)) ∧
    (iterIds [true, false, true, true, false]
        (List.length [true, false, true, true, false]) 0).Pairwise (· < ·) ∧
    (∀ id, (iterSeekExact [⟨[1], []⟩, ⟨[2], []⟩, ⟨[3], []⟩, ⟨[4], []⟩, ⟨[5], []⟩]
          [true, false, true, true, false] id).1.isSome ↔
        ∃ j, id ≤ j ∧ j < List.length [true, false, true, true, false] ∧
          List.getD [true, false, true, true, false] j false = false) ∧
    (∀ id j r, (iterSeekExact [⟨[1], []⟩, ⟨[2], []⟩, ⟨[3], []⟩, ⟨[4], []⟩, ⟨[5], []⟩]
          [true, false, true, true, false] id).1 = some (j, r) →
        id ≤ j ∧ j < List.length [true, false, true, true, false] ∧
        List.getD [true, false, true, true, false] j false = false ∧
        (∀ k, id ≤ k → k < j → List.getD [true, false, true, true, false] k false = true) ∧
        r = List.getD [⟨[1], []⟩, ⟨[2], []⟩, ⟨[3], []⟩, ⟨[4], []⟩, ⟨[5], []⟩] j default) :=
  claim10_store_iter_forward
    [⟨[1], []⟩, ⟨[2], []⟩, ⟨[3], []⟩, ⟨[4], []⟩, ⟨[5], []⟩]
    [true, false, true, true, false]

/-!
## Model of CompositeTable (db_table.cpp)

The table state tracked here is what the claimed operations read and
write: the prefix-sum vector m_rowNumVec, the frozen segments, the tail
writable segment m_wrSeg (the last element of m_segments), the free-id
list m_deletedWrIdSet and the scanning refcount.  Index contents live in
the opaque writable-index collaborator and are not changed by any of the
properties claimed about these operations, so the syncIndex work of the
insert/replace/remove paths (projecting the row to each index key and
calling the index) is not tracked in the state; the validation and sub-id
arithmetic of indexInsert/indexRemove, which the claims are about, is
modelled in full.
-/

structure Segment where
  rows  : List Row
  isDel : List Bool
deriving DecidableEq, Repr

structure Table where
  rowNumVec : List Nat
  frozenSegs : List Segment
  wrSeg : Segment
  deletedWrIdSet : List Nat
  tableScanningRefCount : Nat
deriving DecidableEq, Repr

/-- m_segments: the frozen segments followed by the tail m_wrSeg. -/
def Table.segments (t : Table) : List Segment := t.frozenSegs ++ [t.wrSeg]

/-- Last element of the prefix-sum vector, m_rowNumVec.back(). -/
def lastD (a : List Nat) : Nat := a.getD (a.length - 1) 0

/-- upper_bound_0 on the prefix-sum array: index of the first element
greater than key (the std::upper_bound result on sorted input; every
state used in the theorems below has a sorted m_rowNumVec). -/
def upper_bound_0 (a : List Nat) (key : Nat) : Nat :=
  match a with
  | [] => 0
  | x :: xs => if key < x then 0 else 1 + upper_bound_0 xs key

/-- CompositeTable::insertRowImpl (db_table.cpp:357-392), state effects.
Append branch (free list empty or a scan is live): subId is the store's
append result, asserted equal to m_isDel.size(); is_del gets
push_back(false); then the source executes m_rowNumVec.back() = subId;
the returned id is m_rowNumVec.end()[-2] + subId.  Reuse branch: pop a
free sub id (valvec pop_val takes the last), overwrite the store slot and
clear the is_del bit. -/
def insertRowImpl (t : Table) (row : Row) : Table × Nat :=
  if t.deletedWrIdSet = [] ∨ t.tableScanningRefCount ≠ 0 then
    let subId := t.wrSeg.isDel.length
    let wr : Segment := ⟨t.wrSeg.rows ++ [row], t.wrSeg.isDel ++ [false]⟩
    let rnv := t.rowNumVec.set (t.rowNumVec.length - 1) subId
    let wrBaseId := rnv.getD (rnv.length - 2) 0
    ({ t with wrSeg := wr, rowNumVec := rnv }, wrBaseId + subId)
  else
    let subId := (t.deletedWrIdSet.getLast?).getD 0
    let wr : Segment := ⟨t.wrSeg.rows.set subId row, t.wrSeg.isDel.set subId false⟩
    let wrBaseId := t.rowNumVec.getD (t.rowNumVec.length - 2) 0
    ({ t with wrSeg := wr, deletedWrIdSet := t.deletedWrIdSet.dropLast },
     wrBaseId + subId)

/-- CompositeTable::numDataRows (db_table.cpp:303-306):
m_rowNumVec.back() + m_wrSeg->numDataRows(), the latter being the tail's
m_isDel.size(). -/
def Table.numDataRows (t : Table) : Nat :=
  lastD t.rowNumVec + t.wrSeg.isDel.length

/-- CompositeTable::replaceRow (db_table.cpp:394-439).  Locates the
segment with upper_bound_0; the tail branch (j == m_rowNumVec.size()-1)
replaces the store slot in place and returns the unchanged id; the other
branch executes m_wrSeg->m_isDel.set1(subId) - on the tail's bitmap, with
the sub id computed relative to the located segment - and then inserts
the new row through insertRowImpl. -/
def replaceRow (t : Table) (id : Nat) (row : Row) : Table × Nat :=
  let j := upper_bound_0 t.rowNumVec id
  let baseId := t.rowNumVec.getD (j - 1) 0
  let subId := id - baseId
  if j = t.rowNumVec.length - 1 then
    ({ t with wrSeg := ⟨t.wrSeg.rows.set subId row, t.wrSeg.isDel⟩ }, id)
  else
    let t1 := { t with wrSeg := ⟨t.wrSeg.rows, t.wrSeg.isDel.set subId true⟩ }
    insertRowImpl t1 row

/-- CompositeTable::removeRow (db_table.cpp:441-470).  The branch guarded
by j == m_rowNumVec.size() removes the row from the writable store
(WritableStore::remove is not among the sources; modelled from the spec:
physically remove the record from the writable store); the else branch
executes m_wrSeg->m_isDel.set1(subId) on the tail's bitmap. -/
def removeRow (t : Table) (id : Nat) : Table :=
  let j := upper_bound_0 t.rowNumVec id
  let baseId := t.rowNumVec.getD (j - 1) 0
  let subId := id - baseId
  if j = t.rowNumVec.length then
    { t with wrSeg := ⟨t.wrSeg.rows.eraseIdx subId, t.wrSeg.isDel⟩ }
  else
    { t with wrSeg := ⟨t.wrSeg.rows, t.wrSeg.isDel.set subId true⟩ }

/-- CompositeTable::getValue (db_table.cpp:313-328): locate the segment
via upper_bound_0(m_rowNumVec, id) giving j, read sub id id - baseId from
segment j-1.  A segment or slot access out of range is undefined
behaviour in the source, modelled as none. -/
def Table.getValue (t : Table) (id : Nat) : Option Row :=
  let j := upper_bound_0 t.rowNumVec id
  let baseId := t.rowNumVec.getD (j - 1) 0
  let subId := id - baseId
  match t.segments.get? (j - 1) with
  | none => none
  | some seg => seg.rows.get? subId

inductive DbErr
  | invalidIndexId
  | invalidRowId
deriving DecidableEq, Repr

/-- CompositeTable::indexInsert (db_table.cpp:472-493): validation and the
sub id handed to the tail index (minWrRowNum = m_rowNumVec.back() +
m_wrSeg->numDataRows(); ids below it raise invalid_argument). -/
def indexInsert (t : Table) (indexNum indexId id : Nat) : Except DbErr Nat :=
  if indexNum ≤ indexId then .error .invalidIndexId
  else
    let minWrRowNum := lastD t.rowNumVec + t.wrSeg.isDel.length
    if id < minWrRowNum then .error .invalidRowId
    else .ok (id - minWrRowNum)

/-- CompositeTable::indexRemove (db_table.cpp:495-515): identical
validation and sub-id arithmetic. -/
def indexRemove (t : Table) (indexNum indexId id : Nat) : Except DbErr Nat :=
  if indexNum ≤ indexId then .error .invalidIndexId
  else
    let minWrRowNum := lastD t.rowNumVec + t.wrSeg.isDel.length
    if id < minWrRowNum then .error .invalidRowId
    else .ok (id - minWrRowNum)

/-- Sizes read by CompositeTable::totalStorageSize. -/
structure TableSizes where
  readonlyDataMemSize : Nat
  wrDataStorageSize   : Nat
  wrTotalStorageSize  : Nat
  segTotalStorageSizes : List Nat
  indexNum : Nat
deriving DecidableEq, Repr

/-- CompositeTable::totalStorageSize (db_table.cpp:291-301): base size,
then a loop over the indexes whose body loops over the segments with a
shadowing loop variable, then the tail's total size. -/
def totalStorageSize (s : TableSizes) : Nat :=
  let base := s.readonlyDataMemSize + s.wrDataStorageSize
  let afterLoops :=
    (List.range s.indexNum).foldl
      (fun acc _ => s.segTotalStorageSizes.foldl (fun a x => a + x) acc) base
  afterLoops + s.wrTotalStorageSize

/-- Modelled from the spec: totalStorageSize as specified, a single sum
over the segments plus the tail, independent of the index count. -/
def totalStorageSizeSpec (s : TableSizes) : Nat :=
  s.readonlyDataMemSize + s.wrDataStorageSize +
    s.segTotalStorageSizes.sum + s.wrTotalStorageSize

inductive CtErr
  | schemaInvalid
  | oobColumnAccess
deriving DecidableEq, Repr

/-- The per-index column loop of CompositeTable::createTable
(db_table.cpp:51-65), rendered literally: the loop condition tests
j < schema.columnNum() but the body reads schema.getColumnName(i) and
increments i (the outer loop counter), never j.  idxCols are the columns
of the index schema bound at the top of the outer iteration, rowCols the
row schema's columns; getColumnId returns columnNum() when the name is
absent (modelled by List.indexOf) and a lookup at or past columnNum()
raises the invalid-argument error; reading getColumnName out of range is
undefined behaviour in the source, modelled as the distinct error
oobColumnAccess.  proj accumulates m_indexProjects.back_append(k).
fuel bounds the number of iterations; None means the fuel ran out with
the loop still running. -/
def createTableIndexLoop (idxCols rowCols : List String) :
    Nat → Nat → Nat → List Nat → Option (Except CtErr (Nat × List Nat))
  | 0, _, _, _ => none
  | fuel + 1, i, j, proj =>
    if j < idxCols.length then
      match idxCols.get? i with
      | none => some (.error .oobColumnAccess)
      | some colname =>
        let k := rowCols.indexOf colname
        if rowCols.length ≤ k then some (.error .schemaInvalid)
        else createTableIndexLoop idxCols rowCols fuel (i + 1) j (proj ++ [k])
    else some (.ok (i, proj))

/-- Modelled from the spec: the index projection loop as specified,
iterating j over 0..columnNum() and collecting one row-schema column id
per index column, failing exactly when some index column is absent from
the row schema. -/
def indexProjectSpec (rowCols : List String) : List String → Except CtErr (List Nat)
  | [] => .ok []
  | c :: cs =>
    let k := rowCols.indexOf c
    if rowCols.length ≤ k then .error .schemaInvalid
    else
      match indexProjectSpec rowCols cs with
      | .ok ks => .ok (k :: ks)
      | .error e => .error e

/-- C2 (code bug evaluation): on the table state produced by opening a
table with one full two-row frozen segment and a fresh empty tail
(m_rowNumVec = [0,2,2], the duplicated entry convention of openTable),
appending one row through insertRowImpl leaves the segments holding 3
rows in total while m_rowNumVec.back() + tail.numDataRows() is 1: the
assignment m_rowNumVec.back() = subId does not restore the claimed
at-rest invariant (it also makes the prefix-sum vector unsorted,
[0,2,0]).  The returned id does equal m_rowNumVec.end()[-2] + subId. -/
theorem claim2_insert_prefix_sum_bug :
    (((insertRowImpl ⟨[0, 2, 2], [⟨[⟨[1], [1]⟩, ⟨[2], [2]⟩], [false, false]⟩],
        ⟨[], []⟩, [], 0⟩ ⟨[9], [9]⟩).1.segments.map
          (fun s => s.isDel.length)).sum = 3) ∧
    (insertRowImpl ⟨[0, 2, 2], [⟨[⟨[1], [1]⟩, ⟨[2], [2]⟩], [false, false]⟩],
        ⟨[], []⟩, [], 0⟩ ⟨[9], [9]⟩).1.numDataRows = 1 ∧
    ¬ (((insertRowImpl ⟨[0, 2, 2], [⟨[⟨[1], [1]⟩, ⟨[2], [2]⟩], [false, false]⟩],
        ⟨[], []⟩, [], 0⟩ ⟨[9], [9]⟩).1.segments.map
          (fun s => s.isDel.length)).sum =
      (insertRowImpl ⟨[0, 2, 2], [⟨[⟨[1], [1]⟩, ⟨[2], [2]⟩], [false, false]⟩],
        ⟨[], []⟩, [], 0⟩ ⟨[9], [9]⟩).1.numDataRows) ∧
    (insertRowImpl ⟨[0, 2, 2], [⟨[⟨[1], [1]⟩, ⟨[2], [2]⟩], [false, false]⟩],
        ⟨[], []⟩, [], 0⟩ ⟨[9], [9]⟩).2 = 2 ∧
    (insertRowImpl ⟨[0, 2, 2], [⟨[⟨[1], [1]⟩, ⟨[2], [2]⟩], [false, false]⟩],
        ⟨[], []⟩, [], 0⟩ ⟨[9], [9]⟩).1.rowNumVec = [0, 2, 0] := by
  decide

/-- C3 (code bug evaluation): on a table with one two-row frozen segment
(rows with LIDs 0 and 1) and a one-row tail (LID 2), with
m_rowNumVec = [0,2,3], replaceRow(0, r2) takes the non-tail branch and
returns the new LID 3 as claimed, but the owning frozen segment is left
completely unchanged - its is_del[0] stays false - because the source
executes m_wrSeg->m_isDel.set1(subId), marking the TAIL's bitmap at the
frozen sub id and thereby deleting the tail's live row with LID 2;
moreover the prefix-sum corruption of the embedded insert
(m_rowNumVec becomes the unsorted [0,2,1]) makes the subsequent
get_value(3) an out-of-range segment access instead of returning the new
row.  The in-tail path behaves as claimed: replaceRow(2, r) returns 2
and overwrites the tail slot. -/
theorem claim3_replace_marks_wrong_segment :
    (replaceRow ⟨[0, 2, 3], [⟨[⟨[1], [1]⟩, ⟨[2], [2]⟩], [false, false]⟩],
        ⟨[⟨[3], [3]⟩], [false]⟩, [], 0⟩ 0 ⟨[9], [9]⟩).2 = 3 ∧
    (replaceRow ⟨[0, 2, 3], [⟨[⟨[1], [1]⟩, ⟨[2], [2]⟩], [false, false]⟩],
        ⟨[⟨[3], [3]⟩], [false]⟩, [], 0⟩ 0 ⟨[9], [9]⟩).1.frozenSegs =
      [⟨[⟨[1], [1]⟩, ⟨[2], [2]⟩], [false, false]⟩] ∧
    (replaceRow ⟨[0, 2, 3], [⟨[⟨[1], [1]⟩, ⟨[2], [2]⟩], [false, false]⟩],
        ⟨[⟨[3], [3]⟩], [false]⟩, [], 0⟩ 0 ⟨[9], [9]⟩).1.wrSeg.isDel =
      [true, false] ∧
    (replaceRow ⟨[0, 2, 3], [⟨[⟨[1], [1]⟩, ⟨[2], [2]⟩], [false, false]⟩],
        ⟨[⟨[3], [3]⟩], [false]⟩, [], 0⟩ 0 ⟨[9], [9]⟩).1.getValue 3 = none ∧
    (replaceRow ⟨[0, 2, 3], [⟨[⟨[1], [1]⟩, ⟨[2], [2]⟩], [false, false]⟩],
        ⟨[⟨[3], [3]⟩], [false]⟩, [], 0⟩ 2 ⟨[9], [9]⟩).2 = 2 ∧
    (replaceRow ⟨[0, 2, 3], [⟨[⟨[1], [1]⟩, ⟨[2], [2]⟩], [false, false]⟩],
        ⟨[⟨[3], [3]⟩], [false]⟩, [], 0⟩ 2 ⟨[9], [9]⟩).1.wrSeg.rows =
      [⟨[9], [9]⟩] := by
  decide

/-- C4 (code bug evaluation): on the same table state, removing the tail
row (LID 2) does not touch the writable store - the physical-removal
branch requires j == m_rowNumVec.size(), which upper_bound_0 never
returns for an in-range id (the source itself asserts
j < m_rowNumVec.size()) - and only sets the tail's is_del bit; removing
the frozen row LID 0 also sets the TAIL's is_del bit at the frozen sub id
and leaves the owning frozen segment untouched; no update is journaled on
any path. -/
theorem claim4_remove_wrong_branch_and_segment :
    (removeRow ⟨[0, 2, 3], [⟨[⟨[1], [1]⟩, ⟨[2], [2]⟩], [false, false]⟩],
        ⟨[⟨[3], [3]⟩], [false]⟩, [], 0⟩ 2).wrSeg.rows = [⟨[3], [3]⟩] ∧
    (removeRow ⟨[0, 2, 3], [⟨[⟨[1], [1]⟩, ⟨[2], [2]⟩], [false, false]⟩],
        ⟨[⟨[3], [3]⟩], [false]⟩, [], 0⟩ 2).wrSeg.isDel = [true] ∧
    (removeRow ⟨[0, 2, 3], [⟨[⟨[1], [1]⟩, ⟨[2], [2]⟩], [false, false]⟩],
        ⟨[⟨[3], [3]⟩], [false]⟩, [], 0⟩ 0).frozenSegs =
      [⟨[⟨[1], [1]⟩, ⟨[2], [2]⟩], [false, false]⟩] ∧
    (removeRow ⟨[0, 2, 3], [⟨[⟨[1], [1]⟩, ⟨[2], [2]⟩], [false, false]⟩],
        ⟨[⟨[3], [3]⟩], [false]⟩, [], 0⟩ 0).wrSeg.isDel = [true] ∧
    (∀ id, id < 3 →
      upper_bound_0 [0, 2, 3] id < List.length [0, 2, 3]) := by
  decide

/-- C5 (code bug evaluation): on a table whose tail base row number
(m_rowNumVec.back()) is 2 and whose tail holds one row (so LID 2 is a
valid tail row), indexInsert and indexRemove reject id 2 with the
invalid-argument error even though 2 is not below the tail base, because
minWrRowNum is computed as m_rowNumVec.back() + m_wrSeg->numDataRows();
the first id they accept, 3, lies one past the last row and is mapped to
sub id 0. -/
theorem claim5_index_ops_reject_tail_ids :
    indexInsert ⟨[0, 2, 2], [⟨[⟨[1], [1]⟩, ⟨[2], [2]⟩], [false, false]⟩],
        ⟨[⟨[3], [3]⟩], [false]⟩, [], 0⟩ 1 0 2 = .error .invalidRowId ∧
    indexRemove ⟨[0, 2, 2], [⟨[⟨[1], [1]⟩, ⟨[2], [2]⟩], [false, false]⟩],
        ⟨[⟨[3], [3]⟩], [false]⟩, [], 0⟩ 1 0 2 = .error .invalidRowId ∧
    lastD [0, 2, 2] ≤ 2 ∧
    indexInsert ⟨[0, 2, 2], [⟨[⟨[1], [1]⟩, ⟨[2], [2]⟩], [false, false]⟩],
        ⟨[⟨[3], [3]⟩], [false]⟩, [], 0⟩ 1 0 3 = .ok 0 :=
  ⟨rfl, rfl, by decide, rfl⟩

/-- C8 (code bug evaluation): with row schema columns [a, b] and a single
index on the existing column a - an input the claim says must succeed
with exactly one projection entry [0] - the createTable column loop as
written reads the index schema's column at the ever-growing outer counter
i and never advances j, so at the second iteration it accesses column 1
of the one-column index schema, out of range; it therefore neither
completes the iteration nor reports SchemaInvalid correctly (fuel 10 far
exceeds the one iteration the correct loop would need).  The
specification's version of the loop returns the projection [0]. -/
theorem claim8_create_table_loop_bug :
    createTableIndexLoop ["a"] ["a", "b"] 10 0 0 [] =
      some (.error .oobColumnAccess) ∧
    indexProjectSpec ["a", "b"] ["a"] = .ok [0] :=
  ⟨rfl, rfl⟩

/-- C9 (code bug evaluation): with 2 indexes, one frozen segment of total
size 5, base sizes 100 + 10 and tail total 20, totalStorageSize returns
140 = base + 2*5 + 20, adding the segment sum once per index, while the
claimed single-sum value is 135; raising the index count to 3 changes the
result to 145, so the result is not independent of the index count. -/
theorem claim9_total_storage_size_double_counts :
    totalStorageSize ⟨100, 10, 20, [5], 2⟩ = 140 ∧
    totalStorageSizeSpec ⟨100, 10, 20, [5], 2⟩ = 135 ∧
    ¬ (totalStorageSize ⟨100, 10, 20, [5], 2⟩ =
        totalStorageSizeSpec ⟨100, 10, 20, [5], 2⟩) ∧
    ¬ (totalStorageSize ⟨100, 10, 20, [5], 3⟩ =
        totalStorageSize ⟨100, 10, 20, [5], 2⟩) := by
  decide

/-!
## Model of ReadableSegment::addtoUpdateList (db_segment.cpp:224-253)
-/

/-- Pending-update journal of a segment: the sparse list form with the
valvec capacity (unused() = capacity - size) and the dense bitmap form. -/
structure UpdateJournal where
  updateList : List Nat
  listCap    : Nat
  updateBits : List Bool
deriving DecidableEq, Repr

/-- ReadableSegment::addtoUpdateList.  A no-op unless book_updates is on.
Branch 1 pushes onto the list when there is spare capacity or the list is
still below rows/256, and the bitmap is not in use (valvec push_back
grows the capacity when full; the exact growth policy is external,
modelled as just enough).  Branch 2 sets the bit when the bitmap form is
in use.  Branch 3 promotes: allocates rows+1 bits, transfers the list
ids, sets the new id and the guard bit at position rows, and clears the
list. -/
def addtoUpdateList (bookUpdates : Bool) (rows : Nat)
    (j : UpdateJournal) (logicId : Nat) : UpdateJournal :=
  if !bookUpdates then j
  else if (0 < j.listCap - j.updateList.length ∨ j.updateList.length < rows / 256)
      ∧ j.updateBits = [] then
    { j with updateList := j.updateList ++ [logicId],
             listCap := max j.listCap (j.updateList.length + 1) }
  else if j.updateBits ≠ [] then
    { j with updateBits := j.updateBits.set logicId true }
  else
    { updateList := [],
      listCap := j.listCap,
      updateBits :=
        ((j.updateList.foldl (fun b id => b.set id true)
            (List.replicate (rows + 1) false)).set logicId true).set rows true }

theorem foldl_set_length (ids : List Nat) (b : List Bool) :
    (ids.foldl (fun x id => x.set id true) b).length = b.length := by
  induction ids generalizing b with
  | nil => rfl
  | cons id ids ih =>
    simp only [List.foldl_cons]
    rw [ih, List.length_set]

/-- C6: pending-update journal invariant: for every segment with
book_updates on, after each call addtoUpdateList(logicId) the id is
recorded in the journal - present in update_list or set in update_bits -
and at most one of the two representations is non-empty (the list is
cleared when the bitmap form of size rows+1, including the guard bit, is
in use); the bitmap, when in use, keeps that size. -/
theorem claim6_update_journal_records (rows logicId : Nat) (j : UpdateJournal)
    (hId : logicId < rows)
    (hExcl : j.updateBits = [] ∨ j.updateList = [])
    (hLen : j.updateBits ≠ [] → j.updateBits.length = rows + 1) :
    (logicId ∈ (addtoUpdateList true rows j logicId).updateList ∨
     (addtoUpdateList true rows j logicId).updateBits.getD logicId false = true) ∧
    ((addtoUpdateList true rows j logicId).updateBits = [] ∨
     (addtoUpdateList true rows j logicId).updateList = []) ∧
    ((addtoUpdateList true rows j logicId).updateBits ≠ [] →
     (addtoUpdateList true rows j logicId).updateBits.length = rows + 1) := by
  unfold addtoUpdateList
  rw [if_neg (by simp)]
  by_cases h1 : (0 < j.listCap - j.updateList.length ∨
      j.updateList.length < rows / 256) ∧ j.updateBits = []
  · rw [if_pos h1]
    refine ⟨Or.inl (by simp), Or.inl h1.2, fun hne => absurd h1.2 hne⟩
  · rw [if_neg h1]
    by_cases h2 : j.updateBits ≠ []
    · rw [if_pos h2]
      have hblen : j.updateBits.length = rows + 1 := hLen h2
      refine ⟨Or.inr ?_, Or.inr ?_, fun _ => by rw [List.length_set, hblen]⟩
      · exact getDb_set_self _ _ (by omega)
      · rcases hExcl with h | h
        · exact absurd h h2
        · exact h
    · rw [if_neg h2]
      have hflen : ((j.updateList.foldl (fun b id => b.set id true)
          (List.replicate (rows + 1) false)).set logicId true).length = rows + 1 := by
        rw [List.length_set, foldl_set_length, List.length_replicate]
      refine ⟨Or.inr ?_, Or.inr rfl, fun _ => by rw [List.length_set, hflen]⟩
      rw [getDb_set_ne _ _ (by omega : rows ≠ logicId)]
      have hfl : (j.updateList.foldl (fun b id => b.set id true)
          (List.replicate (rows + 1) false)).length = rows + 1 := by
        rw [foldl_set_length, List.length_replicate]
      exact getDb_set_self _ _ (by rw [hfl]; omega)

/-- Witness for C6: journaling id 3 of a 5-row segment into an empty
sparse journal with capacity 4. -/
theorem claim6_witness :
    (3 ∈ (addtoUpdateList true 5 ⟨[], 4, []⟩ 3).updateList ∨
     (addtoUpdateList true 5 ⟨[], 4, []⟩ 3).updateBits.getD 3 false = true) ∧
    ((addtoUpdateList true 5 ⟨[], 4, []⟩ 3).updateBits = [] ∨
     (addtoUpdateList true 5 ⟨[], 4, []⟩ 3).updateList = []) ∧
    ((addtoUpdateList true 5 ⟨[], 4, []⟩ 3).updateBits ≠ [] →
     (addtoUpdateList true 5 ⟨[], 4, []⟩ 3).updateBits.length = 5 + 1) :=
  claim6_update_journal_records 5 3 ⟨[], 4, []⟩ (by decide)
    (Or.inl rfl) (by decide)

/-!
## Model of ReadonlySegment::indexSearchExactAppend (db_segment.cpp:348-376)
-/

/-- ReadonlySegment::indexSearchExactAppend: the underlying read-only
index appends ids (physical ids when is_purged is non-empty) after the
existing oldsize entries of recIdvec; the loop then compacts the appended
range in place, keeping exactly the ids whose is_del bit is clear after
translating each physical id to its logical id by select0 when is_purged
is non-empty. -/
def indexSearchExactAppend (isPurged isDel : List Bool)
    (indexResults recIdvec : List Nat) : List Nat :=
  if isPurged = [] then
    recIdvec ++ indexResults.filter (fun logicId => !(isDel.getD logicId true))
  else
    recIdvec ++
      (indexResults.map (fun physicId => select0 isPurged physicId)).filter
        (fun logicId => !(isDel.getD logicId true))

/-- C7: every id appended to the output vector by indexSearchExactAppend
is a logical id whose is_del bit is clear; the entries already present
are untouched; and when is_purged is non-empty each appended id is the
select0 translation of a physical id produced by the index and refers to
a non-purged row, so callers never see physical ids or deleted rows. -/
theorem claim7_index_search_returns_live_logical_ids
    (isPurged isDel : List Bool) (indexResults recIdvec : List Nat)
    (hLen : isPurged ≠ [] → isPurged.length = isDel.length)
    (hValidP : isPurged ≠ [] → ∀ p ∈ indexResults, p < maxRank0 isPurged)
    (hValidL : isPurged = [] → ∀ p ∈ indexResults, p < isDel.length) :
    (indexSearchExactAppend isPurged isDel indexResults recIdvec).take
        recIdvec.length = recIdvec ∧
    ∀ x ∈ (indexSearchExactAppend isPurged isDel indexResults
        recIdvec).drop recIdvec.length,
      isDel.getD x true = false ∧ x < isDel.length ∧
      (isPurged ≠ [] → isPurged.getD x true = false ∧
        ∃ p ∈ indexResults, x = select0 isPurged p) := by
  unfold indexSearchExactAppend
  by_cases hP : isPurged = []
  · rw [if_pos hP]
    refine ⟨List.take_left _ _, ?_⟩
    intro x hx
    rw [List.drop_left] at hx
    have hx2 := List.mem_filter.mp hx
    have hlive : isDel.getD x true = false := by
      have := hx2.2
      cases hv : isDel.getD x true
      · rfl
      · rw [hv] at this
        exact absurd this (by simp)
    exact ⟨hlive, hValidL hP x hx2.1, fun hne => absurd hP hne⟩
  · rw [if_neg hP]
    refine ⟨List.take_left _ _, ?_⟩
    intro x hx
    rw [List.drop_left] at hx
    have hx2 := List.mem_filter.mp hx
    have hlive : isDel.getD x true = false := by
      have := hx2.2
      cases hv : isDel.getD x true
      · rfl
      · rw [hv] at this
        exact absurd this (by simp)
    rcases List.mem_map.mp hx2.1 with ⟨p, hpmem, hpx⟩
    have hpr : p < maxRank0 isPurged := hValidP hP p hpmem
    refine ⟨hlive, ?_, fun _ => ⟨?_, ⟨p, hpmem, hpx.symm⟩⟩⟩
    · rw [← hpx, ← hLen hP]
      exact select0_lt_length isPurged p hpr
    · rw [← hpx]
      exact select0_bit_clear isPurged p hpr

/-- Witness for C7: a purged segment with bits [false,true,false],
is_del [false,true,true], index results (physical ids) [0,1] and one
pre-existing output entry 7: physical 0 translates to logical 0 (live,
kept), physical 1 translates to logical 2 (deleted, dropped). -/
theorem claim7_witness :
    (indexSearchExactAppend [false, true, false] [false, true, true]
        [0, 1] [7]).take (List.length [7]) = [7] ∧
    ∀ x ∈ (indexSearchExactAppend [false, true, false] [false, true, true]
        [0, 1] [7]).drop (List.length [7]),
      List.getD [false, true, true] x true = false ∧
      x < List.length [false, true, true] ∧
      (([false, true, false] : List Bool) ≠ [] →
        List.getD [false, true, false] x true = false ∧
        ∃ p ∈ [0, 1], x = select0 [false, true, false] p) :=
  claim7_index_search_returns_live_logical_ids
    [false, true, false] [false, true, true] [0, 1] [7]
    (by decide) (by decide) (by decide)

end TerarkDb
